import Mathlib

/-!
Shallow embedding of the annotation pipeline and translation cache of
`mandarin_converter.py` (functions `load_translation_cache`,
`save_translation_cache`, `translate_word`, `is_chinese`, `process_text`,
plus the vocabulary statistics of `generate_html`/`main`), together with
theorems settling the specification claims about it.

External collaborators (jieba segmentation, pypinyin transcription,
the HSK reference data and the GoogleTranslator backend) are modelled as
oracle functions supplied as parameters; the translator may fail
(`Option`), which models the Python exception path.  Side effects are
made explicit: the cache is threaded through as an association list with
Python-dict semantics, translator invocations and printed warnings are
collected into lists.
-/

namespace MandarinConverter

/-- A Python character predicate: the characters removed by `str.strip()`
(Python's unicode whitespace set). -/
def pyIsSpace (c : Char) : Bool :=
  (9 ≤ c.toNat && c.toNat ≤ 13) || (28 ≤ c.toNat && c.toNat ≤ 31) ||
  c.toNat == 32 || c.toNat == 0x85 || c.toNat == 0xA0 || c.toNat == 0x1680 ||
  (0x2000 ≤ c.toNat && c.toNat ≤ 0x200A) || c.toNat == 0x2028 ||
  c.toNat == 0x2029 || c.toNat == 0x202F || c.toNat == 0x205F ||
  c.toNat == 0x3000

/-- Python `word.strip()`: drop leading and trailing whitespace. -/
def pyStrip (s : String) : String :=
  String.mk (((s.data.dropWhile pyIsSpace).reverse.dropWhile pyIsSpace).reverse)

/-- The punctuation characters of the literal string in `translate_word`
(line 68): 。，！？、；：“”‘’（）【】《》…— , given by code point. -/
def punctChars : List Char :=
  [Char.ofNat 0x3002, Char.ofNat 0xFF0C, Char.ofNat 0xFF01, Char.ofNat 0xFF1F,
   Char.ofNat 0x3001, Char.ofNat 0xFF1B, Char.ofNat 0xFF1A, Char.ofNat 0x201C,
   Char.ofNat 0x201D, Char.ofNat 0x2018, Char.ofNat 0x2019, Char.ofNat 0xFF08,
   Char.ofNat 0xFF09, Char.ofNat 0x3010, Char.ofNat 0x3011, Char.ofNat 0x300A,
   Char.ofNat 0x300B, Char.ofNat 0x2026, Char.ofNat 0x2014]

/-- The loop of `is_chinese` (lines 83-88): scan the characters, returning
true as soon as one lies in the range U+4E00..U+9FFF. -/
def containsCJK : List Char → Bool
  | [] => false
  | c :: rest =>
      if 0x4E00 ≤ c.toNat && c.toNat ≤ 0x9FFF then true else containsCJK rest

/-- `is_chinese(text)` (lines 83-88): text contains a Chinese character. -/
def is_chinese (text : String) : Bool :=
  containsCJK text.data

/-- The in-memory translation cache: a `word → translation` mapping with
Python-dict semantics, as an association list in insertion order. -/
abbrev Cache := List (String × String)

/-- Python `word in cache` / `cache[word]`: first-match association lookup. -/
def lookupC : Cache → String → Option String
  | [], _ => none
  | (k, v) :: rest, w => if k == w then some v else lookupC rest w

/-- State of the persisted cache file `translation_cache.json`:
missing, present but unreadable (`IOError`), or present with contents. -/
inductive FileState where
  | missing
  | unreadable
  | present (content : String)
deriving Repr, DecidableEq

/-- `load_translation_cache()` (lines 36-44), parameterised by the JSON
parse oracle (`none` models `json.JSONDecodeError`): a missing file yields
`{}`; an unreadable or unparseable file is caught and yields `{}`. -/
def load_translation_cache (parse : String → Option Cache) :
    FileState → Cache
  | FileState.missing => []
  | FileState.unreadable => []
  | FileState.present s => (parse s).getD []

/-- `save_translation_cache(cache)` (lines 46-52) on the successful path,
parameterised by the JSON serialisation oracle: the file is replaced with
the serialised mapping. -/
def save_translation_cache (serialize : Cache → String) (cache : Cache) :
    FileState :=
  FileState.present (serialize cache)

/-- Result of `translate_word`: the gloss it returns, the cache afterwards,
the words the external translator was invoked on, and the words a
translation-failure warning was printed for. -/
structure TransOut where
  gloss : String
  cache : Cache
  calls : List String
  warns : List String
deriving Repr, DecidableEq

/-- `translate_word(word, cache, translator)` (lines 65-81).  The
translator oracle returns `none` when `translator.translate` raises.
Punctuation/whitespace-only words are returned as-is; a cached word is
answered from the cache with no external call; otherwise the translator is
invoked, a success is recorded into the cache, and a failure yields the
sentinel `"?"`, leaves the cache unchanged and emits a warning naming the
word. -/
def translate_word (tr : String → Option String) (word : String)
    (cache : Cache) : TransOut :=
  if (pyStrip word).isEmpty || word.data.all (fun c => punctChars.contains c) then
    ⟨word, cache, [], []⟩
  else
    match lookupC cache word with
    | some t => ⟨t, cache, [], []⟩
    | none =>
        match tr word with
        | some t => ⟨t, cache ++ [(word, t)], [word], []⟩
        | none => ⟨"?", cache, [word], [word]⟩

/-- The per-word output dictionary built by `process_text`
(lines 114-133). -/
structure AnnotatedWord where
  chinese : String
  pinyin : String
  dutch : String
  hsk_level : Nat
  frequency : Nat
  breakdown : Option (List (String × String))
  is_chinese : Bool
deriving Repr, DecidableEq

/-- The pure external collaborators of the pipeline: jieba segmentation,
pypinyin transcription and the HSK reference-data lookups. -/
structure Collab where
  segment : String → List String
  get_pinyin : String → String
  get_hsk_level : String → Nat × Nat
  get_character_breakdown : String → Option (List (String × String))

/-- One iteration of the `process_text` loop (lines 102-133) on a raw
token: strip it, skip it when empty, and otherwise build the Chinese or
the pass-through record. -/
structure StepOut where
  out : Option AnnotatedWord
  cache : Cache
  calls : List String
  warns : List String
deriving Repr, DecidableEq

/-- The body of the `for word in words` loop of `process_text`
(lines 102-133). -/
def step (co : Collab) (tr : String → Option String) (cache : Cache)
    (w : String) : StepOut :=
  if (pyStrip w).isEmpty then ⟨none, cache, [], []⟩
  else if is_chinese (pyStrip w) then
    ⟨some { chinese := pyStrip w
            pinyin := co.get_pinyin (pyStrip w)
            dutch := (translate_word tr (pyStrip w) cache).gloss
            hsk_level := (co.get_hsk_level (pyStrip w)).1
            frequency := (co.get_hsk_level (pyStrip w)).2
            breakdown := co.get_character_breakdown (pyStrip w)
            is_chinese := true },
     (translate_word tr (pyStrip w) cache).cache,
     (translate_word tr (pyStrip w) cache).calls,
     (translate_word tr (pyStrip w) cache).warns⟩
  else
    ⟨some { chinese := pyStrip w, pinyin := pyStrip w, dutch := pyStrip w
            hsk_level := 0, frequency := 0, breakdown := none
            is_chinese := false },
     cache, [], []⟩

/-- Outcome of a pipeline run: the ordered record sequence, the final
cache, the translator invocations and the warnings, in order. -/
structure RunOut where
  results : List AnnotatedWord
  cache : Cache
  calls : List String
  warns : List String
deriving Repr, DecidableEq

/-- The token loop of `process_text` (lines 101-133), threading the cache
through the per-token steps. -/
def processWords (co : Collab) (tr : String → Option String) :
    List String → Cache → RunOut
  | [], c => ⟨[], c, [], []⟩
  | w :: ws, c =>
      let s := step co tr c w
      let r := processWords co tr ws s.cache
      ⟨s.out.toList ++ r.results, r.cache, s.calls ++ r.calls,
       s.warns ++ r.warns⟩

/-- `process_text(chinese_text)` (lines 90-138): load the cache from the
persisted file, segment the text, and run the token loop.  (The final
`save_translation_cache` writes `RunOut.cache` back, modelled by
`save_translation_cache`.) -/
def process_text (co : Collab) (tr : String → Option String)
    (parse : String → Option Cache) (file : FileState) (text : String) :
    RunOut :=
  processWords co tr (co.segment text) (load_translation_cache parse file)

/-- The empty-input boundary check of `main` (lines 986-993): the input
file content is stripped and, when empty, the program exits with an error
before any processing; otherwise the stripped text is processed. -/
def main_run (co : Collab) (tr : String → Option String)
    (parse : String → Option Cache) (file : FileState) (content : String) :
    Except String RunOut :=
  if (pyStrip content).isEmpty then Except.error "empty input file"
  else Except.ok (process_text co tr parse file (pyStrip content))

/-- `[r for r in results if r['is_chinese']]` (line 762 / line 1028). -/
def chinese_words (results : List AnnotatedWord) : List AnnotatedWord :=
  results.filter (fun r => r.is_chinese)

/-- Python dict assignment `d[k] = v`: update in place when the key is
present (keeping key order), append otherwise. -/
def dictInsert (d : List (String × AnnotatedWord)) (k : String)
    (v : AnnotatedWord) : List (String × AnnotatedWord) :=
  if d.any (fun p => p.1 == k) then
    d.map (fun p => if p.1 == k then (k, v) else p)
  else d ++ [(k, v)]

/-- The dict comprehension `{r['chinese']: r for r in chinese_words}`
(line 763 / line 1029). -/
def uniqueDict (results : List AnnotatedWord) :
    List (String × AnnotatedWord) :=
  (chinese_words results).foldl (fun d r => dictInsert d r.chinese r) []

/-- `unique_words = list({...}.values())` (line 763 / line 1029). -/
def unique_words (results : List AnnotatedWord) : List AnnotatedWord :=
  (uniqueDict results).map (fun p => p.2)

/-- The latest record in the list whose surface is `k` (spec-side helper
used to characterise which record survives deduplication). -/
def lastWith : List AnnotatedWord → String → Option AnnotatedWord
  | [], _ => none
  | r :: rs, k =>
      match lastWith rs k with
      | some v => some v
      | none => if r.chinese == k then some r else none

/-- A trivial collaborator assembly used to instantiate theorems at
concrete inputs. -/
def testCollab : Collab :=
  { segment := fun s => [s]
    get_pinyin := fun s => s
    get_hsk_level := fun _ => (0, 0)
    get_character_breakdown := fun _ => none }

/-- The word 好 (U+597D), a concrete linguistic token. -/
def zhHao : String := String.mk [Char.ofNat 0x597D]

/-- The word 你 (U+4F60), a second concrete linguistic token. -/
def zhNi : String := String.mk [Char.ofNat 0x4F60]

/-- A translator oracle that always fails (raises). -/
def trFail : String → Option String := fun _ => none

/-- A translator oracle that always succeeds with gloss "goed". -/
def trOk : String → Option String := fun _ => some "goed"

/-- A concrete annotated record for 好 whose translation failed. -/
def recA : AnnotatedWord :=
  { chinese := zhHao, pinyin := "hao3", dutch := "?", hsk_level := 1
    frequency := 1, breakdown := none, is_chinese := true }

/-- A concrete annotated record for 好 with the same surface as `recA` but
a successful gloss. -/
def recB : AnnotatedWord :=
  { chinese := zhHao, pinyin := "hao3", dutch := "goed", hsk_level := 1
    frequency := 1, breakdown := none, is_chinese := true }

/-- A pass-through record for the token "a", as the pipeline produces for
the input token " a ". -/
def recC : AnnotatedWord :=
  { chinese := "a", pinyin := "a", dutch := "a", hsk_level := 0
    frequency := 0, breakdown := none, is_chinese := false }

/-! ### Helper lemmas about stripping and the script classifier -/

theorem head_dropWhile_false {α} (p : α → Bool) :
    ∀ (l : List α) (c : α), (l.dropWhile p).head? = some c → p c = false := by
  intro l
  induction l with
  | nil => intro c h; simp [List.dropWhile] at h
  | cons a t ih =>
      intro c h
      by_cases hp : p a
      · rw [List.dropWhile_cons_of_pos hp] at h
        exact ih c h
      · rw [List.dropWhile_cons_of_neg hp] at h
        simp only [List.head?_cons, Option.some.injEq] at h
        subst h
        simpa using hp

theorem dropWhile_eq_self_of_head {α} (p : α → Bool) (l : List α)
    (h : ∀ c, l.head? = some c → p c = false) : l.dropWhile p = l := by
  cases l with
  | nil => rfl
  | cons a t =>
      rw [List.dropWhile_cons_of_neg]
      simp [h a rfl]

theorem mem_dropWhile_of_mem {α} (p : α → Bool) :
    ∀ (l : List α) (c : α), c ∈ l → p c = false → c ∈ l.dropWhile p := by
  intro l
  induction l with
  | nil => intro c h; simp at h
  | cons a t ih =>
      intro c h hc
      by_cases hp : p a
      · rw [List.dropWhile_cons_of_pos hp]
        rcases List.mem_cons.mp h with h1 | h1
        · subst h1; rw [hc] at hp; simp at hp
        · exact ih c h1 hc
      · rw [List.dropWhile_cons_of_neg hp]
        exact h

theorem pyStrip_data (s : String) :
    (pyStrip s).data =
      ((s.data.dropWhile pyIsSpace).reverse.dropWhile pyIsSpace).reverse := rfl

theorem pyStrip_head_false (s : String) (c : Char)
    (h : (pyStrip s).data.head? = some c) : pyIsSpace c = false := by
  rw [pyStrip_data] at h
  set d := s.data.dropWhile pyIsSpace with hd
  have hdec : d = ((d.reverse.dropWhile pyIsSpace).reverse : List Char) ++
      (d.reverse.takeWhile pyIsSpace).reverse := by
    have := List.takeWhile_append_dropWhile pyIsSpace d.reverse
    calc d = d.reverse.reverse := (List.reverse_reverse d).symm
    _ = (d.reverse.takeWhile pyIsSpace ++ d.reverse.dropWhile pyIsSpace).reverse := by
        rw [this]
    _ = _ := by rw [List.reverse_append]
  have hne : ((d.reverse.dropWhile pyIsSpace).reverse : List Char) ≠ [] := by
    intro hnil
    rw [hnil] at h
    simp at h
  have hhead : d.head? = some c := by
    rw [hdec, List.head?_append_of_ne_nil _ hne]
    exact h
  exact head_dropWhile_false pyIsSpace s.data c hhead

theorem pyStrip_last_false (s : String) (c : Char)
    (h : (pyStrip s).data.getLast? = some c) : pyIsSpace c = false := by
  rw [pyStrip_data, List.getLast?_reverse] at h
  exact head_dropWhile_false pyIsSpace _ c h

theorem pyStrip_idem (s : String) : pyStrip (pyStrip s) = pyStrip s := by
  apply congrArg String.mk
  have h1 : (pyStrip s).data.dropWhile pyIsSpace = (pyStrip s).data :=
    dropWhile_eq_self_of_head _ _ (pyStrip_head_false s)
  show (((pyStrip s).data.dropWhile pyIsSpace).reverse.dropWhile pyIsSpace).reverse
      = (pyStrip s).data
  rw [h1]
  have h2 : (pyStrip s).data.reverse.dropWhile pyIsSpace = (pyStrip s).data.reverse := by
    apply dropWhile_eq_self_of_head
    intro c hc
    rw [List.head?_reverse] at hc
    exact pyStrip_last_false s c hc
  rw [h2, List.reverse_reverse]

theorem containsCJK_eq_any (l : List Char) :
    containsCJK l = l.any (fun c => 0x4E00 ≤ c.toNat && c.toNat ≤ 0x9FFF) := by
  induction l with
  | nil => rfl
  | cons c rest ih =>
      by_cases h : (0x4E00 ≤ c.toNat && c.toNat ≤ 0x9FFF) = true
      · simp [containsCJK, h]
      · simp only [Bool.not_eq_true] at h
        simp [containsCJK, h, ih]

theorem containsCJK_iff (l : List Char) :
    containsCJK l = true ↔ ∃ c ∈ l, 0x4E00 ≤ c.toNat ∧ c.toNat ≤ 0x9FFF := by
  rw [containsCJK_eq_any, List.any_eq_true]
  constructor
  · rintro ⟨c, hc, hrange⟩
    rw [Bool.and_eq_true, decide_eq_true_eq, decide_eq_true_eq] at hrange
    exact ⟨c, hc, hrange⟩
  · rintro ⟨c, hc, h1, h2⟩
    exact ⟨c, hc, by simp [h1, h2]⟩

theorem cjk_not_space (c : Char) (h1 : 0x4E00 ≤ c.toNat) :
    pyIsSpace c = false := by
  unfold pyIsSpace
  have h9 : ¬(c.toNat ≤ 13) := by omega
  have h31 : ¬(c.toNat ≤ 31) := by omega
  simp only [Bool.or_eq_false_iff, Bool.and_eq_false_iff]
  refine ⟨⟨⟨⟨⟨⟨⟨⟨⟨⟨⟨?_, ?_⟩, ?_⟩, ?_⟩, ?_⟩, ?_⟩, ?_⟩, ?_⟩, ?_⟩, ?_⟩, ?_⟩, ?_⟩ <;>
    simp <;> omega

theorem is_chinese_strip_ne (w : String) (h : is_chinese w = true) :
    (pyStrip w).isEmpty = false := by
  rcases (containsCJK_iff w.data).mp h with ⟨c, hc, hlo, hhi⟩
  have hsp : pyIsSpace c = false := cjk_not_space c hlo
  have h1 : c ∈ (pyStrip w).data := by
    rw [pyStrip_data, List.mem_reverse]
    apply mem_dropWhile_of_mem _ _ _ _ hsp
    rw [List.mem_reverse]
    exact mem_dropWhile_of_mem _ _ _ hc hsp
  rw [Bool.eq_false_iff]
  intro hemp
  rw [String.isEmpty_iff] at hemp
  rw [hemp] at h1
  simp at h1

/-! ### Helper lemmas about the cache and `translate_word` -/

theorem lookupC_append_some (c d : Cache) (k : String) (v : String)
    (h : lookupC c k = some v) : lookupC (c ++ d) k = some v := by
  induction c with
  | nil => simp [lookupC] at h
  | cons p rest ih =>
      obtain ⟨pk, pv⟩ := p
      by_cases hk : pk == k
      · simp only [lookupC, hk, if_pos] at h ⊢
        exact h
      · simp only [List.cons_append, lookupC, hk] at h ⊢
        simp only [Bool.false_eq_true, if_false] at h ⊢
        exact ih h

theorem lookupC_append_new (c : Cache) (w t : String)
    (h : lookupC c w = none) : lookupC (c ++ [(w, t)]) w = some t := by
  induction c with
  | nil => simp [lookupC]
  | cons p rest ih =>
      obtain ⟨pk, pv⟩ := p
      by_cases hk : pk == w
      · simp [lookupC, hk] at h
      · simp only [lookupC, hk, Bool.false_eq_true, if_false] at h
        simp only [List.cons_append, lookupC, hk, Bool.false_eq_true, if_false]
        exact ih h

theorem is_chinese_not_punct (w : String) (h : is_chinese w = true) :
    (w.data.all fun c => punctChars.contains c) = false := by
  rcases (containsCJK_iff w.data).mp h with ⟨c, hc, hlo, hhi⟩
  rw [Bool.eq_false_iff]
  intro hall
  rw [List.all_eq_true] at hall
  have hmem := hall c hc
  have hout : ∀ x ∈ punctChars, x.toNat < 0x4E00 ∨ 0x9FFF < x.toNat := by decide
  rcases hout c (by simpa using hmem) with hx | hx <;> omega

theorem tw_punct (tr : String → Option String) (w : String) (c : Cache)
    (h : ((pyStrip w).isEmpty || w.data.all fun x => punctChars.contains x) = true) :
    translate_word tr w c = ⟨w, c, [], []⟩ := by
  unfold translate_word
  rw [if_pos h]

theorem tw_cached (tr : String → Option String) (w : String) (c : Cache)
    (v : String) (hw : is_chinese w = true) (h : lookupC c w = some v) :
    translate_word tr w c = ⟨v, c, [], []⟩ := by
  unfold translate_word
  rw [if_neg, h]
  rw [is_chinese_strip_ne w hw, is_chinese_not_punct w hw]
  simp

theorem tw_miss_ok (tr : String → Option String) (w : String) (c : Cache)
    (t : String) (hw : is_chinese w = true) (h : lookupC c w = none)
    (htr : tr w = some t) :
    translate_word tr w c = ⟨t, c ++ [(w, t)], [w], []⟩ := by
  unfold translate_word
  rw [if_neg, h, htr]
  rw [is_chinese_strip_ne w hw, is_chinese_not_punct w hw]
  simp

theorem tw_miss_fail (tr : String → Option String) (w : String) (c : Cache)
    (hw : is_chinese w = true) (h : lookupC c w = none) (htr : tr w = none) :
    translate_word tr w c = ⟨"?", c, [w], [w]⟩ := by
  unfold translate_word
  rw [if_neg, h, htr]
  rw [is_chinese_strip_ne w hw, is_chinese_not_punct w hw]
  simp

theorem tw_cache_mono (tr : String → Option String) (w : String) (c : Cache)
    (k v : String) (h : lookupC c k = some v) :
    lookupC (translate_word tr w c).cache k = some v := by
  unfold translate_word
  by_cases hp : ((pyStrip w).isEmpty || w.data.all fun x => punctChars.contains x) = true
  · rw [if_pos hp]; exact h
  · rw [if_neg hp]
    cases hl : lookupC c w with
    | some t => exact h
    | none =>
        cases htr : tr w with
        | some t => exact lookupC_append_some c [(w, t)] k v h
        | none => exact h

theorem step_cache_mono (co : Collab) (tr : String → Option String)
    (c : Cache) (w : String) (k v : String) (h : lookupC c k = some v) :
    lookupC (step co tr c w).cache k = some v := by
  unfold step
  by_cases h1 : (pyStrip w).isEmpty = true
  · rw [if_pos h1]; exact h
  · rw [if_neg h1]
    by_cases h2 : is_chinese (pyStrip w) = true
    · rw [if_pos h2]
      exact tw_cache_mono tr (pyStrip w) c k v h
    · rw [if_neg h2]; exact h

theorem run_cache_mono (co : Collab) (tr : String → Option String) :
    ∀ (ws : List String) (c : Cache) (k v : String),
      lookupC c k = some v →
      lookupC (processWords co tr ws c).cache k = some v := by
  intro ws
  induction ws with
  | nil => intro c k v h; exact h
  | cons w rest ih =>
      intro c k v h
      show lookupC (processWords co tr rest (step co tr c w).cache).cache k = some v
      exact ih _ k v (step_cache_mono co tr c w k v h)

theorem processWords_append (co : Collab) (tr : String → Option String) :
    ∀ (xs ys : List String) (c : Cache),
      processWords co tr (xs ++ ys) c =
        ⟨(processWords co tr xs c).results ++
           (processWords co tr ys (processWords co tr xs c).cache).results,
         (processWords co tr ys (processWords co tr xs c).cache).cache,
         (processWords co tr xs c).calls ++
           (processWords co tr ys (processWords co tr xs c).cache).calls,
         (processWords co tr xs c).warns ++
           (processWords co tr ys (processWords co tr xs c).cache).warns⟩ := by
  intro xs
  induction xs with
  | nil => intro ys c; simp [processWords]
  | cons x rest ih =>
      intro ys c
      show processWords co tr (x :: (rest ++ ys)) c = _
      simp only [processWords, ih]
      simp [processWords]

/-! ### Run-level lemmas -/

theorem processWords_nil (co : Collab) (tr : String → Option String)
    (c : Cache) : processWords co tr [] c = ⟨[], c, [], []⟩ := rfl

theorem processWords_cons (co : Collab) (tr : String → Option String)
    (t : String) (rest : List String) (c : Cache) :
    processWords co tr (t :: rest) c =
      ⟨(step co tr c t).out.toList ++
         (processWords co tr rest (step co tr c t).cache).results,
       (processWords co tr rest (step co tr c t).cache).cache,
       (step co tr c t).calls ++
         (processWords co tr rest (step co tr c t).cache).calls,
       (step co tr c t).warns ++
         (processWords co tr rest (step co tr c t).cache).warns⟩ := rfl

theorem tw_calls_mem (tr : String → Option String) (u : String) (c : Cache) :
    ∀ x ∈ (translate_word tr u c).calls, x = u := by
  unfold translate_word
  by_cases hp : ((pyStrip u).isEmpty || u.data.all fun x => punctChars.contains x) = true
  · rw [if_pos hp]; intro x hx; simp at hx
  · rw [if_neg hp]
    cases hl : lookupC c u with
    | some t => intro x hx; simp at hx
    | none =>
        cases htr : tr u with
        | some t => intro x hx; simpa using hx
        | none => intro x hx; simpa using hx

theorem step_cached (co : Collab) (tr : String → Option String) (c : Cache)
    (t w v : String) (hw : is_chinese w = true) (h : lookupC c w = some v) :
    w ∉ (step co tr c t).calls ∧
      ∀ r ∈ (step co tr c t).out.toList, r.chinese = w → r.dutch = v := by
  unfold step
  by_cases h1 : (pyStrip t).isEmpty = true
  · rw [if_pos h1]; simp
  · rw [if_neg h1]
    by_cases h2 : is_chinese (pyStrip t) = true
    · rw [if_pos h2]
      by_cases h3 : pyStrip t = w
      · rw [h3, tw_cached tr w c v hw h]
        simp
      · constructor
        · intro hc
          exact h3 (tw_calls_mem tr (pyStrip t) c w hc).symm
        · intro r hr hcw
          simp only [Option.toList_some, List.mem_singleton] at hr
          rw [hr] at hcw
          exact absurd hcw h3
    · rw [if_neg h2]
      constructor
      · simp
      · intro r hr hcw
        simp only [Option.toList_some, List.mem_singleton] at hr
        rw [hr] at hcw
        simp only at hcw
        rw [hcw] at h2
        exact absurd hw h2

theorem run_cached_no_call (co : Collab) (tr : String → Option String) :
    ∀ (ws : List String) (c : Cache) (w v : String),
      is_chinese w = true → lookupC c w = some v →
      w ∉ (processWords co tr ws c).calls ∧
        ∀ r ∈ (processWords co tr ws c).results,
          r.chinese = w → r.dutch = v := by
  intro ws
  induction ws with
  | nil =>
      intro c w v hw h
      rw [processWords_nil]
      constructor
      · simp
      · intro r hr; simp at hr
  | cons t rest ih =>
      intro c w v hw h
      have hs : lookupC (step co tr c t).cache w = some v :=
        step_cache_mono co tr c t w v h
      obtain ⟨ih1, ih2⟩ := ih (step co tr c t).cache w v hw hs
      obtain ⟨st1, st2⟩ := step_cached co tr c t w v hw h
      rw [processWords_cons]
      constructor
      · simp only [List.mem_append]
        rintro (hc | hc)
        · exact st1 hc
        · exact ih1 hc
      · intro r hr hcw
        simp only [List.mem_append] at hr
        rcases hr with hr | hr
        · exact st2 r hr hcw
        · exact ih2 r hr hcw

theorem step_replay (co : Collab) (tr : String → Option String)
    (c cf : Cache) (t : String)
    (hmono : ∀ k v, lookupC (step co tr c t).cache k = some v →
      lookupC cf k = some v)
    (hw : (step co tr c t).warns = []) :
    step co tr cf t = ⟨(step co tr c t).out, cf, [], []⟩ := by
  by_cases h1 : (pyStrip t).isEmpty = true
  · unfold step
    rw [if_pos h1, if_pos h1]
  · by_cases h2 : is_chinese (pyStrip t) = true
    · have hne : (pyStrip (pyStrip t)).isEmpty = false := is_chinese_strip_ne _ h2
      have hnp : ((pyStrip t).data.all fun x => punctChars.contains x) = false :=
        is_chinese_not_punct _ h2
      cases hl : lookupC c (pyStrip t) with
      | some v =>
          have htw : translate_word tr (pyStrip t) c = ⟨v, c, [], []⟩ :=
            tw_cached tr (pyStrip t) c v h2 hl
          have hcf : lookupC cf (pyStrip t) = some v := by
            apply hmono
            unfold step
            rw [if_neg h1, if_pos h2]
            simp only [htw]
            exact hl
          have htw2 : translate_word tr (pyStrip t) cf = ⟨v, cf, [], []⟩ :=
            tw_cached tr (pyStrip t) cf v h2 hcf
          unfold step
          rw [if_neg h1, if_pos h2, if_neg h1, if_pos h2]
          rw [htw, htw2]
      | none =>
          cases htr : tr (pyStrip t) with
          | some u =>
              have htw : translate_word tr (pyStrip t) c =
                  ⟨u, c ++ [(pyStrip t, u)], [pyStrip t], []⟩ :=
                tw_miss_ok tr (pyStrip t) c u h2 hl htr
              have hcf : lookupC cf (pyStrip t) = some u := by
                apply hmono
                unfold step
                rw [if_neg h1, if_pos h2]
                simp only [htw]
                exact lookupC_append_new c (pyStrip t) u hl
              have htw2 : translate_word tr (pyStrip t) cf = ⟨u, cf, [], []⟩ :=
                tw_cached tr (pyStrip t) cf u h2 hcf
              unfold step
              rw [if_neg h1, if_pos h2, if_neg h1, if_pos h2]
              rw [htw, htw2]
          | none =>
              exfalso
              have htw : translate_word tr (pyStrip t) c =
                  ⟨"?", c, [pyStrip t], [pyStrip t]⟩ :=
                tw_miss_fail tr (pyStrip t) c h2 hl htr
              unfold step at hw
              rw [if_neg h1, if_pos h2] at hw
              simp only [htw] at hw
              exact List.cons_ne_nil _ _ hw
    · unfold step
      rw [if_neg h1, if_neg h2, if_neg h1, if_neg h2]

theorem run_replay (co : Collab) (tr : String → Option String) :
    ∀ (ws : List String) (c : Cache),
      (processWords co tr ws c).warns = [] →
      processWords co tr ws (processWords co tr ws c).cache =
        ⟨(processWords co tr ws c).results,
         (processWords co tr ws c).cache, [], []⟩ := by
  intro ws
  induction ws with
  | nil => intro c _; rw [processWords_nil, processWords_nil]
  | cons t rest ih =>
      intro c hwarn
      rw [processWords_cons] at hwarn
      obtain ⟨hst, hrest⟩ := List.append_eq_nil.mp hwarn
      have hmono : ∀ k v, lookupC (step co tr c t).cache k = some v →
          lookupC (processWords co tr rest (step co tr c t).cache).cache k
            = some v :=
        fun k v h => run_cache_mono co tr rest (step co tr c t).cache k v h
      have hstep2 : step co tr
          (processWords co tr rest (step co tr c t).cache).cache t =
          ⟨(step co tr c t).out,
           (processWords co tr rest (step co tr c t).cache).cache, [], []⟩ :=
        step_replay co tr c _ t hmono hst
      have hih := ih (step co tr c t).cache hrest
      rw [processWords_cons, processWords_cons, hstep2]
      simp only [hih]
      rfl

theorem run_surfaces (co : Collab) (tr : String → Option String) :
    ∀ (ws : List String) (c : Cache),
      (processWords co tr ws c).results.map (fun r => r.chinese) =
        (ws.map pyStrip).filter (fun s => !s.isEmpty) := by
  intro ws
  induction ws with
  | nil => intro c; rw [processWords_nil]; rfl
  | cons t rest ih =>
      intro c
      rw [processWords_cons]
      simp only [List.map_append, List.map_cons, List.filter_cons]
      rw [ih]
      by_cases h1 : (pyStrip t).isEmpty = true
      · simp [step, h1]
      · rw [Bool.not_eq_true] at h1
        by_cases h2 : is_chinese (pyStrip t) = true
        · simp [step, h1, h2]
        · rw [Bool.not_eq_true] at h2
          simp [step, h1, h2]

/-! ### Helper lemmas about the vocabulary dict comprehension -/

theorem mem_dictInsert (d : List (String × AnnotatedWord)) (k : String)
    (v : AnnotatedWord) (p : String × AnnotatedWord) :
    p ∈ dictInsert d k v ↔ p = (k, v) ∨ (p ∈ d ∧ (p.1 == k) = false) := by
  unfold dictInsert
  by_cases h : (d.any fun q => q.1 == k) = true
  · rw [if_pos h]
    rw [List.mem_map]
    constructor
    · rintro ⟨q, hq, hfq⟩
      by_cases hk : (q.1 == k) = true
      · rw [if_pos hk] at hfq
        exact Or.inl hfq.symm
      · rw [if_neg hk] at hfq
        right
        rw [← hfq]
        exact ⟨hq, by simpa using hk⟩
    · rintro (hp | ⟨hp, hk⟩)
      · rcases List.any_eq_true.mp h with ⟨q, hq, hqk⟩
        exact ⟨q, hq, by rw [if_pos hqk, hp]⟩
      · exact ⟨p, hp, by rw [if_neg (by simp [hk])]⟩
  · rw [if_neg h]
    rw [List.mem_append, List.mem_singleton]
    have hall : ∀ q ∈ d, (q.1 == k) = false := by
      intro q hq
      by_contra hc
      rw [Bool.not_eq_false] at hc
      exact h (List.any_eq_true.mpr ⟨q, hq, hc⟩)
    constructor
    · rintro (hp | hp)
      · exact Or.inr ⟨hp, hall p hp⟩
      · exact Or.inl hp
    · rintro (hp | ⟨hp, _⟩)
      · exact Or.inr hp
      · exact Or.inl hp

theorem dictInsert_keys_of_any (d : List (String × AnnotatedWord))
    (k : String) (v : AnnotatedWord)
    (h : (d.any fun q => q.1 == k) = true) :
    (dictInsert d k v).map Prod.fst = d.map Prod.fst := by
  unfold dictInsert
  rw [if_pos h, List.map_map]
  apply List.map_congr_left
  intro q _
  by_cases hk : (q.1 == k) = true
  · simp only [Function.comp_apply, if_pos hk]
    exact (beq_iff_eq.mp hk).symm
  · simp only [Function.comp_apply, if_neg hk]

theorem dictInsert_keys_of_not_any (d : List (String × AnnotatedWord))
    (k : String) (v : AnnotatedWord)
    (h : (d.any fun q => q.1 == k) = false) :
    (dictInsert d k v).map Prod.fst = d.map Prod.fst ++ [k] := by
  unfold dictInsert
  rw [if_neg (by simp [h]), List.map_append]
  rfl

theorem not_any_iff_not_mem_keys (d : List (String × AnnotatedWord))
    (k : String) :
    (d.any fun q => q.1 == k) = false ↔ k ∉ d.map Prod.fst := by
  rw [← Bool.not_eq_true, List.any_eq_true]
  simp only [List.mem_map, beq_iff_eq]

theorem foldl_dict_coherent (l : List AnnotatedWord) :
    ∀ (d : List (String × AnnotatedWord)),
      (∀ p ∈ d, p.2.chinese = p.1) →
      ∀ p ∈ l.foldl (fun d r => dictInsert d r.chinese r) d,
        p.2.chinese = p.1 := by
  induction l with
  | nil => intro d hd p hp; exact hd p hp
  | cons r rest ih =>
      intro d hd p hp
      refine ih (dictInsert d r.chinese r) ?_ p hp
      intro q hq
      rcases (mem_dictInsert d r.chinese r q).mp hq with hq1 | ⟨hq1, _⟩
      · rw [hq1]
      · exact hd q hq1

theorem foldl_dict_last_wins (l : List AnnotatedWord) :
    ∀ (d : List (String × AnnotatedWord)) (k : String) (v : AnnotatedWord),
      (k, v) ∈ l.foldl (fun d r => dictInsert d r.chinese r) d →
      lastWith l k = some v ∨ (lastWith l k = none ∧ (k, v) ∈ d) := by
  induction l with
  | nil => intro d k v h; exact Or.inr ⟨rfl, h⟩
  | cons r rest ih =>
      intro d k v h
      rcases ih (dictInsert d r.chinese r) k v h with hl | ⟨hl, hmem⟩
      · left
        show (match lastWith rest k with
              | some v => some v
              | none => if r.chinese == k then some r else none) = some v
        rw [hl]
      · rcases (mem_dictInsert d r.chinese r (k, v)).mp hmem with hp | ⟨hp, hk⟩
        · left
          obtain ⟨hk, hv⟩ := (Prod.mk.injEq _ _ _ _).mp hp
          show (match lastWith rest k with
                | some v => some v
                | none => if r.chinese == k then some r else none) = some v
          rw [hl, if_pos (beq_iff_eq.mpr hk.symm), hv]
        · right
          constructor
          · show (match lastWith rest k with
                  | some v => some v
                  | none => if r.chinese == k then some r else none) = none
            rw [hl, if_neg]
            simp only [beq_iff_eq]
            intro hc
            simp [hc] at hk
          · exact hp

theorem foldl_dict_keys_nodup (l : List AnnotatedWord) :
    ∀ (d : List (String × AnnotatedWord)),
      (d.map Prod.fst).Nodup →
      ((l.foldl (fun d r => dictInsert d r.chinese r) d).map Prod.fst).Nodup := by
  induction l with
  | nil => intro d hd; exact hd
  | cons r rest ih =>
      intro d hd
      apply ih
      by_cases h : (d.any fun q => q.1 == r.chinese) = true
      · rw [dictInsert_keys_of_any d r.chinese r h]
        exact hd
      · rw [Bool.not_eq_true] at h
        rw [dictInsert_keys_of_not_any d r.chinese r h]
        have hnk : r.chinese ∉ d.map Prod.fst :=
          (not_any_iff_not_mem_keys d r.chinese).mp h
        simp [List.nodup_append, hd, hnk]

theorem foldl_dict_keys_mem (l : List AnnotatedWord) :
    ∀ (d : List (String × AnnotatedWord)) (k : String),
      k ∈ (l.foldl (fun d r => dictInsert d r.chinese r) d).map Prod.fst ↔
        k ∈ d.map Prod.fst ∨ k ∈ l.map (fun r => r.chinese) := by
  induction l with
  | nil => intro d k; simp
  | cons r rest ih =>
      intro d k
      rw [List.foldl_cons, ih]
      by_cases h : (d.any fun q => q.1 == r.chinese) = true
      · rw [dictInsert_keys_of_any d r.chinese r h]
        have hin : r.chinese ∈ d.map Prod.fst := by
          rcases List.any_eq_true.mp h with ⟨q, hq, hqk⟩
          rw [← beq_iff_eq.mp hqk]
          exact List.mem_map_of_mem Prod.fst hq
        simp only [List.map_cons, List.mem_cons]
        constructor
        · rintro (h1 | h1)
          · exact Or.inl h1
          · exact Or.inr (Or.inr h1)
        · rintro (h1 | h1 | h1)
          · exact Or.inl h1
          · exact Or.inl (h1 ▸ hin)
          · exact Or.inr h1
      · rw [Bool.not_eq_true] at h
        rw [dictInsert_keys_of_not_any d r.chinese r h]
        simp only [List.mem_append, List.mem_singleton, List.map_cons,
          List.mem_cons]
        tauto

/-! ### Claim theorems -/

/-- Claim C9 (confirmed): `is_chinese` returns true iff the token contains
at least one character with code point in U+4E00..U+9FFF inclusive; one
qualifying character suffices even in a mixed-script token, and the
function is a pure total function. -/
theorem claim_C9_is_chinese_iff (s : String) :
    is_chinese s = true ↔ ∃ c ∈ s.data, 0x4E00 ≤ c.toNat ∧ c.toNat ≤ 0x9FFF :=
  containsCJK_iff s.data

/-- Claim C6 (confirmed): loading the translation cache never fails: a
missing file yields the empty mapping, an unreadable file (IOError) yields
the empty mapping, and unparseable contents (JSONDecodeError) yield the
empty mapping instead of raising. -/
theorem claim_C6_load_never_fails (parse : String → Option Cache)
    (s : String) :
    load_translation_cache parse FileState.missing = [] ∧
    load_translation_cache parse FileState.unreadable = [] ∧
    (parse s = none →
      load_translation_cache parse (FileState.present s) = []) := by
  refine ⟨rfl, rfl, fun h => ?_⟩
  show (parse s).getD [] = []
  rw [h]
  rfl

/-- Witness for C6 at a concrete unparseable file. -/
theorem claim_C6_load_never_fails_witness :
    (fun _ : String => (none : Option Cache)) "garbage" = none ∧
    load_translation_cache (fun _ => none) (FileState.present "garbage")
      = [] :=
  ⟨rfl, (claim_C6_load_never_fails (fun _ => none) "garbage").2.2 rfl⟩

/-- Claim C5 (confirmed): input text that strips to empty is rejected at
the `main` boundary with an error, before any annotation is attempted. -/
theorem claim_C5_empty_input_rejected (co : Collab)
    (tr : String → Option String) (parse : String → Option Cache)
    (file : FileState) (content : String)
    (h : (pyStrip content).isEmpty = true) :
    main_run co tr parse file content = Except.error "empty input file" := by
  unfold main_run
  rw [if_pos h]

/-- Witness for C5 at a concrete whitespace-only input. -/
theorem claim_C5_empty_input_rejected_witness :
    (pyStrip "  ").isEmpty = true ∧
    main_run testCollab trFail (fun _ => none) FileState.missing "  " =
      Except.error "empty input file" :=
  ⟨by decide, claim_C5_empty_input_rejected testCollab trFail (fun _ => none)
    FileState.missing "  " (by decide)⟩

/-- Claim C8 (confirmed): a non-linguistic token yields a record whose
transcription, gloss and surface all equal the stripped token text, with
level 0 and empty breakdown, leaving the cache untouched, making no
translator call, and reading no collaborator at all (the result is
identical under arbitrary collaborator and translator oracles). -/
theorem claim_C8_non_linguistic_passthrough (co co2 : Collab)
    (tr tr2 : String → Option String) (c c2 : Cache) (w : String)
    (h1 : (pyStrip w).isEmpty = false)
    (h2 : is_chinese (pyStrip w) = false) :
    step co tr c w =
      ⟨some { chinese := pyStrip w, pinyin := pyStrip w, dutch := pyStrip w
              hsk_level := 0, frequency := 0, breakdown := none
              is_chinese := false }, c, [], []⟩ ∧
    step co2 tr2 c2 w =
      ⟨some { chinese := pyStrip w, pinyin := pyStrip w, dutch := pyStrip w
              hsk_level := 0, frequency := 0, breakdown := none
              is_chinese := false }, c2, [], []⟩ := by
  constructor
  · unfold step
    rw [if_neg (by simp [h1]), if_neg (by simp [h2])]
  · unfold step
    rw [if_neg (by simp [h1]), if_neg (by simp [h2])]

/-- Witness for C8 at the Latin token "abc", under two different
translator oracles and cache states. -/
theorem claim_C8_non_linguistic_passthrough_witness :
    (pyStrip "abc").isEmpty = false ∧ is_chinese (pyStrip "abc") = false ∧
    (step testCollab trFail [] "abc" =
      ⟨some { chinese := pyStrip "abc", pinyin := pyStrip "abc"
              dutch := pyStrip "abc", hsk_level := 0, frequency := 0
              breakdown := none, is_chinese := false }, [], [], []⟩ ∧
     step testCollab trOk [(zhHao, "x")] "abc" =
      ⟨some { chinese := pyStrip "abc", pinyin := pyStrip "abc"
              dutch := pyStrip "abc", hsk_level := 0, frequency := 0
              breakdown := none, is_chinese := false },
       [(zhHao, "x")], [], []⟩) :=
  ⟨by decide, by decide,
   claim_C8_non_linguistic_passthrough testCollab testCollab trFail trOk
     [] [(zhHao, "x")] "abc" (by decide) (by decide)⟩

/-- Claim C2 (confirmed): once a linguistic word has an entry in the cache
(obtained by any earlier annotation, in this run or a previous one whose
cache was persisted and loaded), processing any word sequence from that
cache state never invokes the translator on it, and every record for it
uses the cached gloss. -/
theorem claim_C2_translator_at_most_once (co : Collab)
    (tr : String → Option String) (ws : List String) (c : Cache)
    (w v : String) (hw : is_chinese w = true)
    (hc : lookupC c w = some v) :
    w ∉ (processWords co tr ws c).calls ∧
      ∀ r ∈ (processWords co tr ws c).results,
        r.chinese = w → r.dutch = v :=
  run_cached_no_call co tr ws c w v hw hc

/-- Witness for C2: with 好 already cached, a run over 好 makes no
translator call. -/
theorem claim_C2_translator_at_most_once_witness :
    is_chinese zhHao = true ∧
    lookupC [(zhHao, "goed")] zhHao = some "goed" ∧
    (zhHao ∉ (processWords testCollab trFail [zhHao] [(zhHao, "goed")]).calls ∧
      ∀ r ∈ (processWords testCollab trFail [zhHao] [(zhHao, "goed")]).results,
        r.chinese = zhHao → r.dutch = "goed") :=
  ⟨by decide, by decide,
   claim_C2_translator_at_most_once testCollab trFail [zhHao]
     [(zhHao, "goed")] zhHao "goed" (by decide) (by decide)⟩

/-- Claim C7 (confirmed): the cache is monotonically additive within a
run: any key/value pair present in the cache after some prefix of the
token sequence is still present, with the same value, after the whole
sequence — no eviction and no overwrite with a different value. -/
theorem claim_C7_cache_monotone (co : Collab) (tr : String → Option String)
    (ws1 ws2 : List String) (c : Cache) (k v : String)
    (h : lookupC (processWords co tr ws1 c).cache k = some v) :
    lookupC (processWords co tr (ws1 ++ ws2) c).cache k = some v := by
  rw [processWords_append]
  exact run_cache_mono co tr ws2 _ k v h

/-- Witness for C7: 好 translated in the first half of a run survives
unchanged through the second half. -/
theorem claim_C7_cache_monotone_witness :
    lookupC (processWords testCollab trOk [zhHao] []).cache zhHao =
      some "goed" ∧
    lookupC (processWords testCollab trOk ([zhHao] ++ [zhNi]) []).cache
      zhHao = some "goed" :=
  ⟨by decide,
   claim_C7_cache_monotone testCollab trOk [zhHao] [zhNi] [] zhHao "goed"
     (by decide)⟩

/-- Claim C3 (confirmed): when the translator fails on an uncached
linguistic word, the pipeline does not raise: that token's record carries
the sentinel gloss "?" with `is_chinese = true`, the cache is left
unchanged for the failing step (the remaining tokens are processed from
the unmodified cache), a warning naming the word is emitted, and every
other non-empty token still yields a record in original order. -/
theorem claim_C3_failure_isolated (co : Collab)
    (tr : String → Option String) (c : Cache) (ws1 ws2 : List String)
    (t : String) (hzh : is_chinese (pyStrip t) = true)
    (hmiss : lookupC (processWords co tr ws1 c).cache (pyStrip t) = none)
    (hfail : tr (pyStrip t) = none) :
    processWords co tr (ws1 ++ t :: ws2) c =
      ⟨(processWords co tr ws1 c).results ++
         { chinese := pyStrip t, pinyin := co.get_pinyin (pyStrip t)
           dutch := "?", hsk_level := (co.get_hsk_level (pyStrip t)).1
           frequency := (co.get_hsk_level (pyStrip t)).2
           breakdown := co.get_character_breakdown (pyStrip t)
           is_chinese := true } ::
         (processWords co tr ws2 (processWords co tr ws1 c).cache).results,
       (processWords co tr ws2 (processWords co tr ws1 c).cache).cache,
       (processWords co tr ws1 c).calls ++ pyStrip t ::
         (processWords co tr ws2 (processWords co tr ws1 c).cache).calls,
       (processWords co tr ws1 c).warns ++ pyStrip t ::
         (processWords co tr ws2 (processWords co tr ws1 c).cache).warns⟩ ∧
    (processWords co tr (ws1 ++ t :: ws2) c).results.map
        (fun r => r.chinese) =
      ((ws1 ++ t :: ws2).map pyStrip).filter (fun s => !s.isEmpty) := by
  have h1 : (pyStrip t).isEmpty = false := by
    have h := is_chinese_strip_ne (pyStrip t) hzh
    rwa [pyStrip_idem] at h
  have hstep : step co tr (processWords co tr ws1 c).cache t =
      ⟨some { chinese := pyStrip t, pinyin := co.get_pinyin (pyStrip t)
              dutch := "?", hsk_level := (co.get_hsk_level (pyStrip t)).1
              frequency := (co.get_hsk_level (pyStrip t)).2
              breakdown := co.get_character_breakdown (pyStrip t)
              is_chinese := true },
       (processWords co tr ws1 c).cache, [pyStrip t], [pyStrip t]⟩ := by
    unfold step
    rw [if_neg (by simp [h1]), if_pos hzh,
      tw_miss_fail tr (pyStrip t) _ hzh hmiss hfail]
  refine ⟨?_, run_surfaces co tr (ws1 ++ t :: ws2) c⟩
  rw [processWords_append, processWords_cons, hstep]
  rfl

/-- Witness for C3: translator failure on 好 with a following token 你. -/
theorem claim_C3_failure_isolated_witness :
    is_chinese (pyStrip zhHao) = true ∧
    lookupC (processWords testCollab trFail [] []).cache (pyStrip zhHao)
      = none ∧
    trFail (pyStrip zhHao) = none ∧
    (processWords testCollab trFail ([] ++ zhHao :: [zhNi]) []).results.map
        (fun r => r.chinese) =
      (([] ++ zhHao :: [zhNi]).map pyStrip).filter (fun s => !s.isEmpty) :=
  ⟨by decide, by decide, rfl,
   (claim_C3_failure_isolated testCollab trFail [] [] [zhNi] zhHao
     (by decide) (by decide) rfl).2⟩

/-- Claim C4 (corrected), counterexample to the claim as stated: with a
translator that failed on 好 in run 1 (so 好 was not cached), a second
run over the same text with the cache persisted by run 1 invokes the
translator again — the second run's call list is not empty. -/
theorem claim_C4_zero_calls_false :
    (process_text testCollab trFail (fun _ => some [])
        (save_translation_cache (fun _ => "")
          (process_text testCollab trFail (fun _ => some [])
            FileState.missing zhHao).cache)
        zhHao).calls ≠ [] := by decide

/-- Claim C4 (corrected, amended): if every translation of run 1
succeeded (run 1 emitted no warnings) and the persisted cache parses back
to run 1's final cache, then rerunning the pipeline on the same text from
the persisted cache produces identical records and invokes the translator
zero times. -/
theorem claim_C4_rerun_identical_zero_calls (co : Collab)
    (tr : String → Option String) (parse : String → Option Cache)
    (serialize : Cache → String) (file : FileState) (text : String)
    (hround : parse (serialize (process_text co tr parse file text).cache) =
      some (process_text co tr parse file text).cache)
    (hnowarn : (process_text co tr parse file text).warns = []) :
    (process_text co tr parse
        (save_translation_cache serialize
          (process_text co tr parse file text).cache) text).results =
      (process_text co tr parse file text).results ∧
    (process_text co tr parse
        (save_translation_cache serialize
          (process_text co tr parse file text).cache) text).calls = [] := by
  have hload : load_translation_cache parse
      (save_translation_cache serialize
        (process_text co tr parse file text).cache) =
      (process_text co tr parse file text).cache := by
    show (parse (serialize (process_text co tr parse file text).cache)).getD []
        = (process_text co tr parse file text).cache
    rw [hround]
    rfl
  have key := run_replay co tr (co.segment text)
    (load_translation_cache parse file) hnowarn
  have h2 : process_text co tr parse
      (save_translation_cache serialize
        (process_text co tr parse file text).cache) text =
      ⟨(process_text co tr parse file text).results,
       (process_text co tr parse file text).cache, [], []⟩ := by
    show processWords co tr (co.segment text)
        (load_translation_cache parse
          (save_translation_cache serialize
            (process_text co tr parse file text).cache)) = _
    rw [hload]
    exact key
  rw [h2]
  exact ⟨rfl, rfl⟩

/-- Witness for the amended C4: a run whose single translation succeeds,
with a parse oracle that round-trips its final cache. -/
theorem claim_C4_rerun_identical_zero_calls_witness :
    (fun _ : String => some [(zhHao, "goed")] : String → Option Cache)
      ((fun _ : Cache => "x")
        (process_text testCollab trOk (fun _ => some [(zhHao, "goed")])
          FileState.missing zhHao).cache) =
      some (process_text testCollab trOk (fun _ => some [(zhHao, "goed")])
        FileState.missing zhHao).cache ∧
    (process_text testCollab trOk (fun _ => some [(zhHao, "goed")])
      FileState.missing zhHao).warns = [] ∧
    ((process_text testCollab trOk (fun _ => some [(zhHao, "goed")])
        (save_translation_cache (fun _ => "x")
          (process_text testCollab trOk (fun _ => some [(zhHao, "goed")])
            FileState.missing zhHao).cache) zhHao).results =
      (process_text testCollab trOk (fun _ => some [(zhHao, "goed")])
        FileState.missing zhHao).results ∧
     (process_text testCollab trOk (fun _ => some [(zhHao, "goed")])
        (save_translation_cache (fun _ => "x")
          (process_text testCollab trOk (fun _ => some [(zhHao, "goed")])
            FileState.missing zhHao).cache) zhHao).calls = []) :=
  ⟨by decide, by decide,
   claim_C4_rerun_identical_zero_calls testCollab trOk
     (fun _ => some [(zhHao, "goed")]) (fun _ => "x") FileState.missing
     zhHao (by decide) (by decide)⟩

/-- Claim C10 (confirmed): every output record's surface is the
corresponding segmenter token stripped of surrounding whitespace, the
output surfaces appear in original token order with empty-after-strip
tokens skipped, and every surface is non-empty, strip-invariant, and free
of leading or trailing whitespace characters. -/
theorem claim_C10_surfaces_stripped (co : Collab)
    (tr : String → Option String) (ws : List String) (c : Cache) :
    (processWords co tr ws c).results.map (fun r => r.chinese) =
      (ws.map pyStrip).filter (fun s => !s.isEmpty) ∧
    ∀ r ∈ (processWords co tr ws c).results,
      r.chinese.data ≠ [] ∧ pyStrip r.chinese = r.chinese ∧
      (∀ ch, r.chinese.data.head? = some ch → pyIsSpace ch = false) ∧
      (∀ ch, r.chinese.data.getLast? = some ch → pyIsSpace ch = false) := by
  refine ⟨run_surfaces co tr ws c, ?_⟩
  intro r hr
  have hmem : r.chinese ∈
      (processWords co tr ws c).results.map (fun r => r.chinese) :=
    List.mem_map_of_mem _ hr
  rw [run_surfaces co tr ws c] at hmem
  obtain ⟨hin, hne⟩ := List.mem_filter.mp hmem
  rcases List.mem_map.mp hin with ⟨t, _, ht⟩
  refine ⟨?_, ?_, ?_, ?_⟩
  · intro hd
    have hempty : r.chinese = "" := by
      have hmk : r.chinese = String.mk r.chinese.data := rfl
      rw [hmk, hd]
    rw [hempty] at hne
    exact absurd hne (by decide)
  · rw [← ht, pyStrip_idem]
  · intro ch hch
    rw [← ht] at hch
    exact pyStrip_head_false t ch hch
  · intro ch hch
    rw [← ht] at hch
    exact pyStrip_last_false t ch hch

/-- Witness for C10: the token " a " produces the record for "a", whose
surface is non-empty and strip-invariant. -/
theorem claim_C10_surfaces_stripped_witness :
    recC ∈ (processWords testCollab trFail [" a "] []).results ∧
    recC.chinese.data ≠ [] ∧ pyStrip recC.chinese = recC.chinese :=
  ⟨by decide,
   ((claim_C10_surfaces_stripped testCollab trFail [" a "] []).2 recC
     (by decide)).1,
   ((claim_C10_surfaces_stripped testCollab trFail [" a "] []).2 recC
     (by decide)).2.1⟩

/-- Claim C1 (corrected), counterexample to the claim as stated: two
linguistic records sharing the surface 好, the first with gloss "?" and
the second with gloss "goed"; the unique list keeps the second (latest)
record, not the first. -/
theorem claim_C1_first_wins_false :
    unique_words [recA, recB] = [recB] ∧ recB ≠ recA := by
  constructor
  · decide
  · decide

/-- Claim C1 (corrected, amended): the vocabulary unique-word list is the
linguistic records deduplicated by surface — each surface occurs exactly
once, a surface occurs iff some linguistic record carries it — and
whenever records share a surface the retained record is the one from the
LATEST position in the input sequence. -/
theorem claim_C1_unique_last_wins (rs : List AnnotatedWord) :
    ((unique_words rs).map (fun r => r.chinese)).Nodup ∧
    (∀ k, k ∈ (unique_words rs).map (fun r => r.chinese) ↔
      k ∈ (chinese_words rs).map (fun r => r.chinese)) ∧
    ∀ r ∈ unique_words rs, lastWith (chinese_words rs) r.chinese = some r := by
  have hco : ∀ p ∈ uniqueDict rs, p.2.chinese = p.1 :=
    foldl_dict_coherent (chinese_words rs) []
      (by intro p hp; simp at hp)
  have hmapeq : (unique_words rs).map (fun r => r.chinese) =
      (uniqueDict rs).map Prod.fst := by
    unfold unique_words
    rw [List.map_map]
    apply List.map_congr_left
    intro p hp
    exact hco p hp
  refine ⟨?_, ?_, ?_⟩
  · rw [hmapeq]
    exact foldl_dict_keys_nodup (chinese_words rs) [] (by simp)
  · intro k
    rw [hmapeq]
    have hkeys := foldl_dict_keys_mem (chinese_words rs) [] k
    rw [show (uniqueDict rs).map Prod.fst =
        ((chinese_words rs).foldl
          (fun d r => dictInsert d r.chinese r) []).map Prod.fst from rfl]
    rw [hkeys]
    simp
  · intro r hr
    rcases List.mem_map.mp hr with ⟨p, hp, hpr⟩
    have hk : p.2.chinese = p.1 := hco p hp
    have hlast := foldl_dict_last_wins (chinese_words rs) [] p.1 p.2 hp
    rcases hlast with h | ⟨_, habs⟩
    · rw [← hpr, hk]
      exact h
    · simp at habs

/-- Witness for the amended C1 at a concrete duplicate-surface input. -/
theorem claim_C1_unique_last_wins_witness :
    recB ∈ unique_words [recA, recB] ∧
    lastWith (chinese_words [recA, recB]) recB.chinese = some recB :=
  ⟨by decide,
   (claim_C1_unique_last_wins [recA, recB]).2.2 recB (by decide)⟩

end MandarinConverter
